import Mathlib

/-
Verification development for the swap-bootstrapping zero-curve program
(src/main.cpp).  The C++ code works on IEEE doubles; we model every
double by an exact real number, every loop over coupon dates by a
finite sum, and the ordered map of curve pillars by a list of
(maturity, rate) pairs kept sorted by maturity.
-/

open Finset

/-- A zero curve: the pillar data of the C++ map from maturity to
continuously compounded zero rate, as an association list ordered by
maturity (the map iteration order). -/
abbrev Curve := List (ℝ × ℝ)

/-- The maturities (map keys) of the stored pillars. -/
def curveKeys (c : Curve) : List ℝ := c.map Prod.fst

/-- ZeroCurve.addNode: insert-or-assign of the C++ map at key time
(sorted-position insertion, overwriting an existing equal key). -/
noncomputable def addNode (c : Curve) (time rate : ℝ) : Curve :=
  match c with
  | [] => [(time, rate)]
  | p :: rest =>
    if time < p.1 then (time, rate) :: p :: rest
    else if time = p.1 then (time, rate) :: rest
    else p :: addNode rest time rate

/-- The scan of ZeroCurve.getZeroRate after the first pillar: walk the
pillars keeping the previous one; at the first pillar with key >= t
interpolate between it and the previous pillar, and past the end
return the rate of the last pillar (the lower_bound == end case). -/
noncomputable def zeroRateLoop (t : ℝ) : (ℝ × ℝ) → List (ℝ × ℝ) → ℝ
  | p, [] => p.2
  | p, q :: rest =>
    if t ≤ q.1 then (q.2 - p.2) / (q.1 - p.1) * (t - p.1) + p.2
    else zeroRateLoop t q rest

/-- ZeroCurve.getZeroRate: 0.0 on an empty curve; the first pillar rate
when t is at or before the first maturity; otherwise the scan above. -/
noncomputable def getZeroRate (c : Curve) (t : ℝ) : ℝ :=
  match c with
  | [] => 0
  | p :: rest => if t ≤ p.1 then p.2 else zeroRateLoop t p rest

/-- ZeroCurve.getDiscountFactor: exp(-r * t) with r the zero rate at t. -/
noncomputable def getDiscountFactor (c : Curve) (t : ℝ) : ℝ :=
  Real.exp (-getZeroRate c t * t)

/-- Number of iterations of the coupon loop
for (int i = 1; i * 0.5 < mat; ++i): the number of integers i >= 1
with i * 0.5 < mat. -/
noncomputable def couponCount (mat : ℝ) : ℕ := (⌈2 * mat⌉ - 1).toNat

/-- The accumulated sumDiscountedCoupons of Bootstrapper.calibrate:
sum of S * 0.5 * DF(0.5 * i) over the coupon loop. -/
noncomputable def sumDiscountedCoupons (c : Curve) (S mat : ℝ) : ℝ :=
  ∑ i ∈ Finset.Icc 1 (couponCount mat), S * 0.5 * getDiscountFactor c (0.5 * i)

/-- The stub length tau_n of Bootstrapper.calibrate:
mat - floor(2.0 * mat) / 2.0. -/
noncomputable def tau_n (mat : ℝ) : ℝ := mat - ⌊2 * mat⌋ / 2

/-- The discount factor df_n solved for by one bootstrapping step. -/
noncomputable def df_n (c : Curve) (mat S : ℝ) : ℝ :=
  (1 - sumDiscountedCoupons c S mat) / (1 + tau_n mat * S)

/-- The zero rate inserted by one bootstrapping step:
(df_n > 0) ? -log(df_n) / mat : 0.0. -/
noncomputable def stepRate (c : Curve) (mat S : ℝ) : ℝ :=
  if 0 < df_n c mat S then -Real.log (df_n c mat S) / mat else 0

/-- One iteration of the quote loop of Bootstrapper.calibrate: skip the
quote when its maturity is already a pillar, otherwise solve and insert. -/
noncomputable def calibrateStep (c : Curve) (q : ℝ × ℝ) : Curve :=
  if q.1 ∈ curveKeys c then c
  else addNode c q.1 (stepRate c q.1 q.2)

/-- The quote loop of Bootstrapper.calibrate over an already sorted
quote list. -/
noncomputable def calibrateLoop (c : Curve) (qs : List (ℝ × ℝ)) : Curve :=
  qs.foldl calibrateStep c

/-- The maturity sort performed by the Bootstrapper constructor. -/
noncomputable def sortQuotes (qs : List (ℝ × ℝ)) : List (ℝ × ℝ) :=
  List.insertionSort (fun a b => a.1 < b.1) qs

/-- Bootstrapper.calibrate including the constructor sort: quotes as
(maturity, rate) pairs, seed curve passed by value. -/
noncomputable def calibrate (qs : List (ℝ × ℝ)) (c : Curve) : Curve :=
  calibrateLoop c (sortQuotes qs)

/-- The stub length last_tau of SwapPricer.annuity (the source repeats
the tau_n formula of the bootstrapper here). -/
noncomputable def last_tau (maturity : ℝ) : ℝ := maturity - ⌊2 * maturity⌋ / 2

/-- SwapPricer.annuity: sum of 0.5 * DF(t) over the coupon dates
t = 0.5, 1.0, ... strictly below maturity, plus the final stub term
last_tau * DF(maturity). -/
noncomputable def annuity (c : Curve) (maturity : ℝ) : ℝ :=
  (∑ i ∈ Finset.Icc 1 (couponCount maturity), 0.5 * getDiscountFactor c (0.5 * i))
    + last_tau maturity * getDiscountFactor c maturity

/-- SwapPricer.calculateFaireRate: (1 - DF(T)) / annuity, with sentinel
0 when the annuity is below 1e-8. -/
noncomputable def calculateFaireRate (c : Curve) (maturity : ℝ) : ℝ :=
  if annuity c maturity < 1e-8 then 0
  else (1 - getDiscountFactor c maturity) / annuity c maturity

/-- SwapPricer.priceSwap: NPV of receive-floating pay-fixed,
(1 - DF(T)) - fixedRate * annuity. -/
noncomputable def priceSwap (c : Curve) (maturity fixedRate : ℝ) : ℝ :=
  (1 - getDiscountFactor c maturity) - fixedRate * annuity c maturity

/-- The coupon loop runs exactly over the integers i >= 1 with
i * 0.5 < mat. -/
lemma mem_Icc_couponCount (mat : ℝ) (i : ℕ) :
    i ∈ Finset.Icc 1 (couponCount mat) ↔ 1 ≤ i ∧ (i : ℝ) * 0.5 < mat := by
  rw [Finset.mem_Icc, couponCount]
  constructor
  · rintro ⟨h1, h2⟩
    refine ⟨h1, ?_⟩
    by_cases hz : 0 ≤ ⌈2 * mat⌉ - 1
    · have h3 : (i : ℤ) ≤ ⌈2 * mat⌉ - 1 := (Int.le_toNat hz).mp h2
      have h4 : (i : ℤ) < ⌈2 * mat⌉ := by omega
      have h5 : (i : ℝ) < 2 * mat := by exact_mod_cast Int.lt_ceil.mp h4
      linarith
    · have : (⌈2 * mat⌉ - 1).toNat = 0 := Int.toNat_of_nonpos (by omega)
      omega
  · rintro ⟨h1, h2⟩
    have h3 : (i : ℝ) < 2 * mat := by linarith
    have h4 : (i : ℤ) < ⌈2 * mat⌉ := Int.lt_ceil.mpr (by exact_mod_cast h3)
    have hz : 0 ≤ ⌈2 * mat⌉ - 1 := by
      have : (1 : ℤ) ≤ (i : ℤ) := by exact_mod_cast h1
      omega
    exact ⟨h1, (Int.le_toNat hz).mpr (by omega)⟩

/-! ### Basic lemmas about curve keys and addNode -/

lemma mem_curveKeys {c : Curve} {t : ℝ} : t ∈ curveKeys c ↔ ∃ r, (t, r) ∈ c := by
  constructor
  · intro h
    obtain ⟨p, hp, hpt⟩ := List.mem_map.mp h
    exact ⟨p.2, by rw [← hpt]; simpa using hp⟩
  · rintro ⟨r, hr⟩
    exact List.mem_map.mpr ⟨(t, r), hr, rfl⟩

lemma addNode_self_mem (c : Curve) (t r : ℝ) : (t, r) ∈ addNode c t r := by
  induction c with
  | nil => simp [addNode]
  | cons p rest ih =>
    simp only [addNode]
    split_ifs with h1 h2
    · exact List.mem_cons_self _ _
    · exact List.mem_cons_self _ _
    · exact List.mem_cons_of_mem _ ih

lemma addNode_mem_of_ne {c : Curve} (t r : ℝ) {p : ℝ × ℝ}
    (hp : p ∈ c) (hne : p.1 ≠ t) : p ∈ addNode c t r := by
  induction c with
  | nil => cases hp
  | cons q rest ih =>
    simp only [addNode]
    split_ifs with h1 h2
    · exact List.mem_cons_of_mem _ hp
    · rcases List.mem_cons.mp hp with rfl | hp2
      · exact absurd (h2 ▸ rfl) hne.symm
      · exact List.mem_cons_of_mem _ hp2
    · rcases List.mem_cons.mp hp with rfl | hp2
      · exact List.mem_cons_self _ _
      · exact List.mem_cons_of_mem _ (ih hp2)

lemma mem_curveKeys_addNode {c : Curve} {t r x : ℝ}
    (h : x ∈ curveKeys (addNode c t r)) : x = t ∨ x ∈ curveKeys c := by
  induction c with
  | nil => simpa [addNode, curveKeys] using h
  | cons q rest ih =>
    simp only [addNode] at h
    split_ifs at h with h1 h2
    · simp only [curveKeys, List.map_cons, List.mem_cons] at h ⊢
      tauto
    · simp only [curveKeys, List.map_cons, List.mem_cons] at h ⊢
      tauto
    · simp only [curveKeys, List.map_cons, List.mem_cons] at h ⊢
      rcases h with h | h
      · tauto
      · rcases ih h with h3 | h3 <;> tauto

lemma sorted_addNode {c : Curve} (hs : List.Sorted (· < ·) (curveKeys c))
    (t r : ℝ) : List.Sorted (· < ·) (curveKeys (addNode c t r)) := by
  induction c with
  | nil => simp [addNode, curveKeys]
  | cons q rest ih =>
    simp only [curveKeys, List.map_cons, List.sorted_cons] at hs
    obtain ⟨hq, hrest⟩ := hs
    simp only [addNode]
    split_ifs with h1 h2
    · simp only [curveKeys, List.map_cons, List.sorted_cons]
      refine ⟨?_, hq, hrest⟩
      intro b hb
      rcases List.mem_cons.mp hb with rfl | hb2
      · exact h1
      · exact lt_trans h1 (hq b hb2)
    · simp only [curveKeys, List.map_cons, List.sorted_cons]
      exact ⟨fun b hb => h2 ▸ hq b hb, hrest⟩
    · have hqt : q.1 < t := lt_of_le_of_ne (not_lt.mp h1) (Ne.symm h2)
      simp only [curveKeys, List.map_cons, List.sorted_cons]
      refine ⟨?_, ih hrest⟩
      intro b hb
      rcases mem_curveKeys_addNode hb with rfl | hb2
      · exact hqt
      · exact hq b hb2

/-! ### Exact lookup at a stored pillar -/

lemma zeroRateLoop_pillar (t : ℝ) :
    ∀ (l : List (ℝ × ℝ)) (p : ℝ × ℝ),
      List.Sorted (· < ·) (curveKeys (p :: l)) → p.1 < t →
      ∀ r : ℝ, (t, r) ∈ l → zeroRateLoop t p l = r := by
  intro l
  induction l with
  | nil => intro p _ _ r hr; cases hr
  | cons q rest ih =>
    intro p hs hpt r hr
    simp only [curveKeys, List.map_cons, List.sorted_cons] at hs
    obtain ⟨hp, hq, hrest⟩ := hs
    simp only [zeroRateLoop]
    rcases List.mem_cons.mp hr with heq | hmem
    · have hq1 : q.1 = t := by rw [← heq]
      have hq2 : q.2 = r := by rw [← heq]
      rw [if_pos (le_of_eq hq1.symm)]
      have hne : q.1 - p.1 ≠ 0 :=
        sub_ne_zero.mpr (ne_of_gt (hq1.symm ▸ hpt))
      rw [← hq1, div_mul_cancel₀ _ hne]
      linarith [hq2]
    · have ht : t ∈ curveKeys rest := mem_curveKeys.mpr ⟨r, hmem⟩
      have hqt : q.1 < t := hq t ht
      rw [if_neg (not_le.mpr hqt)]
      refine ih q ?_ hqt r hmem
      simp only [curveKeys, List.map_cons, List.sorted_cons]
      exact ⟨hq, hrest⟩

lemma getZeroRate_pillar {c : Curve} (hs : List.Sorted (· < ·) (curveKeys c))
    {t r : ℝ} (h : (t, r) ∈ c) : getZeroRate c t = r := by
  match c with
  | [] => cases h
  | p :: rest =>
    simp only [getZeroRate]
    rcases List.mem_cons.mp h with heq | hmem
    · have h1 : p.1 = t := by rw [← heq]
      have h2 : p.2 = r := by rw [← heq]
      rw [if_pos (le_of_eq h1.symm)]
      exact h2
    · simp only [curveKeys, List.map_cons, List.sorted_cons] at hs
      have hpt : p.1 < t := hs.1 t (mem_curveKeys.mpr ⟨r, hmem⟩)
      rw [if_neg (not_le.mpr hpt)]
      refine zeroRateLoop_pillar t rest p ?_ hpt r hmem
      simp only [curveKeys, List.map_cons, List.sorted_cons]
      exact hs

lemma getDiscountFactor_pillar {c : Curve}
    (hs : List.Sorted (· < ·) (curveKeys c)) {t r : ℝ} (h : (t, r) ∈ c) :
    getDiscountFactor c t = Real.exp (-r * t) := by
  rw [getDiscountFactor, getZeroRate_pillar hs h]

/-! ### Flat extrapolation and interpolation of getZeroRate -/

lemma getZeroRate_nil (t : ℝ) : getZeroRate [] t = 0 := rfl

lemma getZeroRate_cons (p : ℝ × ℝ) (rest : List (ℝ × ℝ)) (t : ℝ) :
    getZeroRate (p :: rest) t = if t ≤ p.1 then p.2 else zeroRateLoop t p rest := rfl

lemma zeroRateLoop_cons (t : ℝ) (p q : ℝ × ℝ) (rest : List (ℝ × ℝ)) :
    zeroRateLoop t p (q :: rest)
      = if t ≤ q.1 then (q.2 - p.2) / (q.1 - p.1) * (t - p.1) + p.2
        else zeroRateLoop t q rest := rfl

lemma sorted_key_le_getLast {l : List (ℝ × ℝ)} (hne : l ≠ [])
    (hs : List.Sorted (· < ·) (curveKeys l)) :
    ∀ q ∈ l, q.1 ≤ (l.getLast hne).1 := by
  induction l with
  | nil => cases hne rfl
  | cons p rest ih =>
    intro q hq
    simp only [curveKeys, List.map_cons, List.sorted_cons] at hs
    cases rest with
    | nil =>
      rcases List.mem_cons.mp hq with rfl | h2
      · exact le_refl _
      · cases h2
    | cons x xs =>
      rw [List.getLast_cons_cons]
      rcases List.mem_cons.mp hq with rfl | h2
      · have hmem : (x :: xs).getLast (List.cons_ne_nil _ _) ∈ x :: xs :=
          List.getLast_mem _
        have hkey : ((x :: xs).getLast (List.cons_ne_nil _ _)).1
            ∈ List.map Prod.fst (x :: xs) := List.mem_map_of_mem _ hmem
        exact le_of_lt (hs.1 _ (by simpa using hkey))
      · exact ih (by simp) hs.2 q h2

lemma zeroRateLoop_getLast (t : ℝ) :
    ∀ (l : List (ℝ × ℝ)) (p : ℝ × ℝ),
      List.Sorted (· < ·) (curveKeys (p :: l)) → p.1 < t →
      (∀ q ∈ l, q.1 ≤ t) →
      zeroRateLoop t p l = ((p :: l).getLast (List.cons_ne_nil p l)).2 := by
  intro l
  induction l with
  | nil => intro p _ _ _; simp [zeroRateLoop]
  | cons q rest ih =>
    intro p hs hpt hall
    simp only [curveKeys, List.map_cons, List.sorted_cons] at hs
    have hqt : q.1 ≤ t := hall q (List.mem_cons_self _ _)
    rw [zeroRateLoop_cons, List.getLast_cons_cons]
    by_cases hle : t ≤ q.1
    · have ht : t = q.1 := le_antisymm hle hqt
      have hrest : rest = [] := by
        cases rest with
        | nil => rfl
        | cons x xs =>
          exfalso
          have hx : q.1 < x.1 := hs.2.1 x.1 (by simp)
          have hxt : x.1 ≤ t := hall x (by simp)
          rw [ht] at hxt
          linarith
      subst hrest
      rw [if_pos hle]
      have hne2 : q.1 - p.1 ≠ 0 := sub_ne_zero.mpr (ne_of_gt (ht ▸ hpt))
      rw [ht, div_mul_cancel₀ _ hne2]
      simp
    · rw [if_neg hle]
      have hqt2 : q.1 < t := not_le.mp hle
      exact ih q
        (by simp only [curveKeys, List.map_cons, List.sorted_cons]; exact hs.2)
        hqt2 (fun x hx => hall x (List.mem_cons_of_mem _ hx))

lemma getZeroRate_flat_right {c : Curve} (hne : c ≠ [])
    (hs : List.Sorted (· < ·) (curveKeys c)) {t : ℝ}
    (ht : (c.getLast hne).1 ≤ t) : getZeroRate c t = (c.getLast hne).2 := by
  match c with
  | [] => exact absurd rfl hne
  | p :: rest =>
    rw [getZeroRate_cons]
    by_cases hle : t ≤ p.1
    · cases rest with
      | nil => rw [if_pos hle]; simp
      | cons x xs =>
        exfalso
        have hmem : (p :: x :: xs).getLast hne ∈ x :: xs := by
          rw [List.getLast_cons_cons]
          exact List.getLast_mem _
        have hkey : ((p :: x :: xs).getLast hne).1 ∈ List.map Prod.fst (x :: xs) :=
          List.mem_map_of_mem _ hmem
        have h2 : p.1 < ((p :: x :: xs).getLast hne).1 := by
          simp only [curveKeys, List.map_cons, List.sorted_cons] at hs
          exact hs.1 _ (by simpa using hkey)
        have h3 : ((p :: x :: xs).getLast hne).1 ≤ p.1 := le_trans ht hle
        linarith
    · rw [if_neg hle]
      have hpt : p.1 < t := not_le.mp hle
      have hall : ∀ q ∈ rest, q.1 ≤ t := fun q hq =>
        le_trans (sorted_key_le_getLast hne hs q (List.mem_cons_of_mem _ hq)) ht
      rw [zeroRateLoop_getLast t rest p hs hpt hall]

lemma zeroRateLoop_skip (t : ℝ) :
    ∀ (l1 : List (ℝ × ℝ)) (p : ℝ × ℝ) (rest : List (ℝ × ℝ)),
      (∀ x ∈ l1, ¬ t ≤ x.1) →
      zeroRateLoop t p (l1 ++ rest)
        = zeroRateLoop t ((p :: l1).getLast (List.cons_ne_nil _ _)) rest := by
  intro l1
  induction l1 with
  | nil => intro p rest _; simp
  | cons x l1x ih =>
    intro p rest h
    rw [List.cons_append, zeroRateLoop_cons,
      if_neg (h x (List.mem_cons_self _ _)),
      ih x rest (fun y hy => h y (List.mem_cons_of_mem _ hy)),
      List.getLast_cons_cons]

lemma getZeroRate_interp (l1 : List (ℝ × ℝ)) (t1 r1 t2 r2 : ℝ)
    (l2 : List (ℝ × ℝ)) (t : ℝ)
    (hs : List.Sorted (· < ·) (curveKeys (l1 ++ (t1, r1) :: (t2, r2) :: l2)))
    (h1 : t1 < t) (h2 : t ≤ t2) :
    getZeroRate (l1 ++ (t1, r1) :: (t2, r2) :: l2) t
      = (r2 - r1) / (t2 - t1) * (t - t1) + r1 := by
  cases l1 with
  | nil =>
    rw [List.nil_append, getZeroRate_cons, if_neg (not_le.mpr h1),
      zeroRateLoop_cons, if_pos h2]
  | cons p0 l1x =>
    have hs2 : List.Sorted (· < ·)
        (curveKeys (p0 :: l1x) ++ curveKeys ((t1, r1) :: (t2, r2) :: l2)) := by
      simpa [curveKeys] using hs
    have hsplit : ∀ a ∈ curveKeys (p0 :: l1x),
        ∀ b ∈ curveKeys ((t1, r1) :: (t2, r2) :: l2), a < b :=
      fun a ha b hb => (List.pairwise_append.mp hs2).2.2 a ha b hb
    have hp0 : p0.1 < t1 :=
      hsplit p0.1 (by simp [curveKeys]) t1 (by simp [curveKeys])
    have hkeys : ∀ x ∈ l1x, x.1 < t1 := fun x hx =>
      hsplit x.1
        (by simp only [curveKeys, List.map_cons, List.mem_cons]; exact Or.inr (List.mem_map_of_mem _ hx))
        t1 (by simp [curveKeys])
    rw [List.cons_append, getZeroRate_cons,
      if_neg (not_le.mpr (lt_trans hp0 h1))]
    have hassoc : l1x ++ (t1, r1) :: (t2, r2) :: l2
        = (l1x ++ [(t1, r1)]) ++ ((t2, r2) :: l2) := by simp
    rw [hassoc]
    have hcond : ∀ x ∈ l1x ++ [(t1, r1)], ¬ t ≤ x.1 := by
      intro x hx
      rcases List.mem_append.mp hx with hx1 | hx1
      · exact not_le.mpr (lt_trans (hkeys x hx1) h1)
      · simp only [List.mem_singleton] at hx1
        subst hx1
        exact not_le.mpr h1
    rw [zeroRateLoop_skip t (l1x ++ [(t1, r1)]) p0 ((t2, r2) :: l2) hcond]
    have hlast : ((p0 :: (l1x ++ [(t1, r1)])).getLast (List.cons_ne_nil _ _))
        = (t1, r1) :=
      (List.getLast_append' (p0 :: l1x) [(t1, r1)] (by simp)).trans
        (List.getLast_singleton' _)
    rw [hlast, zeroRateLoop_cons, if_pos h2]

/-- C3: on an empty curve getZeroRate returns 0 for any t (so the
discount factor is 1); on a sorted non-empty curve a query at or below
the smallest maturity returns the first pillar rate, a query at or
above the largest maturity returns the last pillar rate (flat
extrapolation on both sides, for every such t), and a query strictly
between two adjacent pillars t1 < t <= t2 returns the linear
interpolation r1 + (r2 - r1) * (t - t1) / (t2 - t1). -/
theorem zeroRate_query_contract :
    (∀ t : ℝ, getZeroRate [] t = 0 ∧ getDiscountFactor [] t = 1) ∧
    (∀ (c : Curve) (hne : c ≠ []),
      List.Sorted (· < ·) (curveKeys c) → ∀ t : ℝ,
        (t ≤ (c.head hne).1 → getZeroRate c t = (c.head hne).2) ∧
        ((c.getLast hne).1 ≤ t → getZeroRate c t = (c.getLast hne).2)) ∧
    (∀ (l1 : List (ℝ × ℝ)) (t1 r1 t2 r2 : ℝ) (l2 : List (ℝ × ℝ)) (t : ℝ),
      List.Sorted (· < ·) (curveKeys (l1 ++ (t1, r1) :: (t2, r2) :: l2)) →
      t1 < t → t ≤ t2 →
      getZeroRate (l1 ++ (t1, r1) :: (t2, r2) :: l2) t
        = r1 + (r2 - r1) * (t - t1) / (t2 - t1)) := by
  refine ⟨?_, ?_, ?_⟩
  · intro t
    refine ⟨rfl, ?_⟩
    rw [getDiscountFactor, getZeroRate_nil]
    simp
  · intro c hne hs t
    constructor
    · intro ht
      obtain ⟨p, rest, rfl⟩ := List.exists_cons_of_ne_nil hne
      simp only [List.head_cons] at ht ⊢
      rw [getZeroRate_cons, if_pos ht]
    · intro ht
      exact getZeroRate_flat_right hne hs ht
  · intro l1 t1 r1 t2 r2 l2 t hs h1 h2
    rw [getZeroRate_interp l1 t1 r1 t2 r2 l2 t hs h1 h2]
    ring

/-- Witness for C3: a concrete sorted two-pillar curve, evaluated below
the first pillar, above the last pillar, and strictly between them. -/
theorem zeroRate_query_contract_witness :
    List.Sorted (· < ·) (curveKeys [((1:ℝ), (5:ℝ)), (2, 9)]) ∧
    getZeroRate [((1:ℝ), (5:ℝ)), (2, 9)] 0 = 5 ∧
    getZeroRate [((1:ℝ), (5:ℝ)), (2, 9)] 7 = 9 ∧
    getZeroRate [((1:ℝ), (5:ℝ)), (2, 9)] (3/2) = 5 + (9 - 5) * (3/2 - 1) / (2 - 1) := by
  have hs : List.Sorted (· < ·) (curveKeys [((1:ℝ), (5:ℝ)), (2, 9)]) := by
    norm_num [curveKeys, List.sorted_cons]
  refine ⟨hs, ?_, ?_, ?_⟩
  · exact (zeroRate_query_contract.2.1 _ (by simp) hs 0).1 (by norm_num)
  · exact (zeroRate_query_contract.2.1 _ (by simp) hs 7).2 (by norm_num)
  · exact zeroRate_query_contract.2.2 [] 1 5 2 9 [] (3/2) hs (by norm_num) (by norm_num)

/-- C4: on a sorted curve, a getZeroRate query at a stored pillar
maturity returns exactly the stored rate of that pillar. -/
theorem pillar_lookup_exact (c : Curve) (t r : ℝ)
    (hs : List.Sorted (· < ·) (curveKeys c)) (h : (t, r) ∈ c) :
    getZeroRate c t = r :=
  getZeroRate_pillar hs h

/-- Witness for C4: the middle pillar of a concrete three-pillar curve,
where a naive bracket search would otherwise interpolate. -/
theorem pillar_lookup_exact_witness :
    List.Sorted (· < ·) (curveKeys [((1:ℝ), (5:ℝ)), (2, 9), (4, 3)]) ∧
    ((2:ℝ), (9:ℝ)) ∈ [((1:ℝ), (5:ℝ)), (2, 9), (4, 3)] ∧
    getZeroRate [((1:ℝ), (5:ℝ)), (2, 9), (4, 3)] 2 = 9 := by
  refine ⟨?_, ?_, ?_⟩
  · norm_num [curveKeys, List.sorted_cons]
  · simp
  · exact pillar_lookup_exact _ 2 9 (by norm_num [curveKeys, List.sorted_cons]) (by simp)

/-! ### C2: the bootstrapping step formula -/

/-- C2: for a quote (T, S) whose maturity is not yet a pillar, the
bootstrapping step inserts at T the rate derived from the discount
factor DF_T = (1 - sumCoupons) / (1 + tau_last * S); sumCoupons ranges
exactly over the integers i >= 1 with i * tau < T, read from the curve
built so far; tau_last = T - floor(T / tau) * tau with tau = 0.5; and
tau_last = 0 (not tau) when T is an exact multiple of tau. -/
theorem bootstrap_step_formula :
    (∀ (mat : ℝ) (i : ℕ),
      i ∈ Finset.Icc 1 (couponCount mat) ↔ 1 ≤ i ∧ (i : ℝ) * 0.5 < mat) ∧
    (∀ mat : ℝ, tau_n mat = mat - ⌊mat / 0.5⌋ * 0.5) ∧
    (∀ k : ℤ, tau_n ((k : ℝ) * 0.5) = 0) ∧
    (∀ (c : Curve) (T S : ℝ), T ∉ curveKeys c →
      calibrateStep c (T, S)
        = addNode c T
            (if 0 < (1 - sumDiscountedCoupons c S T) / (1 + tau_n T * S)
             then -Real.log ((1 - sumDiscountedCoupons c S T) / (1 + tau_n T * S)) / T
             else 0)) := by
  refine ⟨mem_Icc_couponCount, ?_, ?_, ?_⟩
  · intro mat
    rw [tau_n, show mat / 0.5 = 2 * mat by ring]
    ring
  · intro k
    rw [tau_n, show 2 * ((k : ℝ) * 0.5) = (k : ℝ) by ring, Int.floor_intCast]
    ring
  · intro c T S hT
    rw [calibrateStep, if_neg hT, stepRate, df_n]

/-- Witness for C2: the step on the empty curve with quote (1, 1). -/
theorem bootstrap_step_formula_witness :
    (1:ℝ) ∉ curveKeys [] ∧
    calibrateStep [] (1, 1)
      = addNode [] 1
          (if 0 < (1 - sumDiscountedCoupons [] 1 1) / (1 + tau_n 1 * 1)
           then -Real.log ((1 - sumDiscountedCoupons [] 1 1) / (1 + tau_n 1 * 1)) / 1
           else 0) :=
  ⟨by simp [curveKeys], bootstrap_step_formula.2.2.2 [] 1 1 (by simp [curveKeys])⟩

/-! ### C9 and C10: fair rate and repricing identities of the pricer -/

lemma annuity_nil_zero : annuity [] 0 = 0 := by
  rw [annuity]
  norm_num [couponCount, last_tau]

lemma annuity_nil_one : annuity [] 1 = 0.5 := by
  rw [annuity]
  norm_num [couponCount, last_tau, getDiscountFactor, getZeroRate_nil,
    Finset.Icc_self, Finset.sum_singleton]

/-- C9: calculateFaireRate returns the sentinel 0 (without failing)
whenever the annuity is below the 1e-8 epsilon threshold, and otherwise
returns exactly (1 - DF(T)) / annuity. -/
theorem fairRate_contract (c : Curve) (T : ℝ) :
    (annuity c T < 1e-8 → calculateFaireRate c T = 0) ∧
    (1e-8 ≤ annuity c T →
      calculateFaireRate c T = (1 - getDiscountFactor c T) / annuity c T ∧
      calculateFaireRate c T * annuity c T = 1 - getDiscountFactor c T) := by
  constructor
  · intro h
    rw [calculateFaireRate, if_pos h]
  · intro h
    have hlt : ¬ annuity c T < 1e-8 := not_lt.mpr h
    have hpos : (0:ℝ) < annuity c T := lt_of_lt_of_le (by norm_num) h
    rw [calculateFaireRate, if_neg hlt]
    exact ⟨rfl, div_mul_cancel₀ _ (ne_of_gt hpos)⟩

/-- Witness for C9: the degenerate branch at maturity 0 and the regular
branch at maturity 1, both on the empty curve. -/
theorem fairRate_contract_witness :
    annuity [] 0 < 1e-8 ∧ calculateFaireRate [] 0 = 0 ∧
    (1e-8 : ℝ) ≤ annuity [] 1 ∧
    calculateFaireRate [] 1 = (1 - getDiscountFactor [] 1) / annuity [] 1 := by
  refine ⟨by rw [annuity_nil_zero]; norm_num,
    (fairRate_contract [] 0).1 (by rw [annuity_nil_zero]; norm_num),
    by rw [annuity_nil_one]; norm_num,
    ((fairRate_contract [] 1).2 (by rw [annuity_nil_one]; norm_num)).1⟩

/-- C10: when the annuity is at least the 1e-8 threshold, the NPV of a
swap at any fixed rate x factors as (fairRate - x) * annuity, and in
particular pricing at the fair rate gives exactly zero NPV. -/
theorem priceSwap_fairRate_identity (c : Curve) (T : ℝ)
    (h : 1e-8 ≤ annuity c T) :
    (∀ x : ℝ, priceSwap c T x = (calculateFaireRate c T - x) * annuity c T) ∧
    priceSwap c T (calculateFaireRate c T) = 0 := by
  have hlt : ¬ annuity c T < 1e-8 := not_lt.mpr h
  have hne : annuity c T ≠ 0 := ne_of_gt (lt_of_lt_of_le (by norm_num) h)
  have hmain : ∀ x : ℝ,
      priceSwap c T x = (calculateFaireRate c T - x) * annuity c T := by
    intro x
    rw [priceSwap, calculateFaireRate, if_neg hlt, sub_mul, div_mul_cancel₀ _ hne]
  exact ⟨hmain, by rw [hmain]; ring⟩

/-- Witness for C10: the empty curve at maturity 1, where the annuity
is 0.5 and the fair-rate swap reprices to exactly zero. -/
theorem priceSwap_fairRate_identity_witness :
    (1e-8 : ℝ) ≤ annuity [] 1 ∧ priceSwap [] 1 (calculateFaireRate [] 1) = 0 :=
  ⟨by rw [annuity_nil_one]; norm_num,
    (priceSwap_fairRate_identity [] 1 (by rw [annuity_nil_one]; norm_num)).2⟩

/-! ### Frame lemmas of the calibration fold -/

lemma calibrateLoop_nil (c : Curve) : calibrateLoop c [] = c := rfl

lemma calibrateLoop_cons (c : Curve) (q : ℝ × ℝ) (qs : List (ℝ × ℝ)) :
    calibrateLoop c (q :: qs) = calibrateLoop (calibrateStep c q) qs := rfl

lemma calibrateStep_mem {c : Curve} {p : ℝ × ℝ} (hp : p ∈ c) (q : ℝ × ℝ) :
    p ∈ calibrateStep c q := by
  rw [calibrateStep]
  split_ifs with h
  · exact hp
  · have hne : p.1 ≠ q.1 := by
      intro he
      exact h (he ▸ (mem_curveKeys.mpr ⟨p.2, by simpa using hp⟩))
    exact addNode_mem_of_ne _ _ hp hne

lemma calibrateLoop_mem {c : Curve} {p : ℝ × ℝ} (hp : p ∈ c)
    (qs : List (ℝ × ℝ)) : p ∈ calibrateLoop c qs := by
  induction qs generalizing c with
  | nil => exact hp
  | cons q qs ih => exact ih (calibrateStep_mem hp q)

lemma calibrateStep_sorted {c : Curve}
    (hs : List.Sorted (· < ·) (curveKeys c)) (q : ℝ × ℝ) :
    List.Sorted (· < ·) (curveKeys (calibrateStep c q)) := by
  rw [calibrateStep]
  split_ifs with h
  · exact hs
  · exact sorted_addNode hs _ _

lemma calibrateLoop_sorted {c : Curve}
    (hs : List.Sorted (· < ·) (curveKeys c)) (qs : List (ℝ × ℝ)) :
    List.Sorted (· < ·) (curveKeys (calibrateLoop c qs)) := by
  induction qs generalizing c with
  | nil => exact hs
  | cons q qs ih => exact ih (calibrateStep_sorted hs q)

lemma mem_curveKeys_calibrateStep {c : Curve} {q : ℝ × ℝ} {x : ℝ}
    (h : x ∈ curveKeys (calibrateStep c q)) : x = q.1 ∨ x ∈ curveKeys c := by
  rw [calibrateStep] at h
  split_ifs at h with hmem
  · exact Or.inr h
  · exact mem_curveKeys_addNode h

lemma mem_curveKeys_calibrateLoop {x : ℝ} :
    ∀ (qs : List (ℝ × ℝ)) (c : Curve), x ∈ curveKeys (calibrateLoop c qs) →
      x ∈ curveKeys c ∨ x ∈ qs.map Prod.fst := by
  intro qs
  induction qs with
  | nil => intro c h; exact Or.inl h
  | cons q qs ih =>
    intro c h
    rw [calibrateLoop_cons] at h
    rcases ih _ h with h2 | h2
    · rcases mem_curveKeys_calibrateStep h2 with rfl | h3
      · right; simp
      · exact Or.inl h3
    · right; simp [h2]

lemma curveKeys_mono_calibrateLoop {c : Curve} {x : ℝ}
    (h : x ∈ curveKeys c) (qs : List (ℝ × ℝ)) :
    x ∈ curveKeys (calibrateLoop c qs) := by
  obtain ⟨r, hr⟩ := mem_curveKeys.mp h
  exact mem_curveKeys.mpr ⟨r, calibrateLoop_mem hr qs⟩

lemma calibrateStep_self_key (c : Curve) (q : ℝ × ℝ) :
    q.1 ∈ curveKeys (calibrateStep c q) := by
  rw [calibrateStep]
  split_ifs with h
  · exact h
  · exact mem_curveKeys.mpr ⟨_, addNode_self_mem _ _ _⟩

lemma mem_key_calibrateLoop :
    ∀ (qs : List (ℝ × ℝ)) (c : Curve) {q : ℝ × ℝ}, q ∈ qs →
      q.1 ∈ curveKeys (calibrateLoop c qs) := by
  intro qs
  induction qs with
  | nil => intro c q h; cases h
  | cons q0 qs ih =>
    intro c q h
    rw [calibrateLoop_cons]
    rcases List.mem_cons.mp h with rfl | h2
    · exact curveKeys_mono_calibrateLoop (calibrateStep_self_key c q) qs
    · exact ih _ h2

lemma calibrateLoop_skip_all :
    ∀ (qs : List (ℝ × ℝ)) (c : Curve),
      (∀ q ∈ qs, q.1 ∈ curveKeys c) → calibrateLoop c qs = c := by
  intro qs
  induction qs with
  | nil => intro c _; rfl
  | cons q qs ih =>
    intro c h
    rw [calibrateLoop_cons, calibrateStep, if_pos (h q (List.mem_cons_self _ _))]
    exact ih c (fun p hp => h p (List.mem_cons_of_mem _ hp))

/-- C7: calibrating twice with the same quote list and seed yields
exactly the same curve (same pillar maturities and rates): after the
first run every quote maturity is a pillar, so the second run skips
every quote. -/
theorem calibrate_idempotent (qs : List (ℝ × ℝ)) (c : Curve) :
    calibrate qs (calibrate qs c) = calibrate qs c := by
  rw [calibrate, calibrate]
  exact calibrateLoop_skip_all _ _ (fun q hq => mem_key_calibrateLoop _ _ hq)

/-- C8: calibrate treats the seed curve as a value: every pillar of the
seed appears with the same maturity and rate in the returned curve, the
returned curve adds keys only at quote maturities, and sortedness of
the pillar keys is preserved, so no existing pillar is removed or
overwritten. -/
theorem calibrate_frame (qs : List (ℝ × ℝ)) (c : Curve)
    (hs : List.Sorted (· < ·) (curveKeys c)) :
    (∀ p ∈ c, p ∈ calibrate qs c) ∧
    (∀ x ∈ curveKeys (calibrate qs c), x ∈ curveKeys c ∨ x ∈ qs.map Prod.fst) ∧
    List.Sorted (· < ·) (curveKeys (calibrate qs c)) := by
  refine ⟨?_, ?_, ?_⟩
  · intro p hp
    exact calibrateLoop_mem hp _
  · intro x hx
    rcases mem_curveKeys_calibrateLoop _ _ hx with h | h
    · exact Or.inl h
    · right
      have hperm : (sortQuotes qs).Perm qs := List.perm_insertionSort _ _
      exact (hperm.map Prod.fst).mem_iff.mp h
  · exact calibrateLoop_sorted hs _

/-- Witness for C8: a seed pillar (1, 2) survives calibration with the
quote (2, 0). -/
theorem calibrate_frame_witness :
    List.Sorted (· < ·) (curveKeys [((1:ℝ), (2:ℝ))]) ∧
    ((1:ℝ), (2:ℝ)) ∈ calibrate [(2, 0)] [((1:ℝ), (2:ℝ))] := by
  have hs : List.Sorted (· < ·) (curveKeys [((1:ℝ), (2:ℝ))]) := by
    simp [curveKeys]
  exact ⟨hs, (calibrate_frame [(2, 0)] [((1:ℝ), (2:ℝ))] hs).1 _ (by simp)⟩

/-! ### C5 and C6: error handling claims against the actual code -/

lemma df_n_nil_one_three : df_n [] 1 3 = -(1/2) := by
  rw [df_n, sumDiscountedCoupons, tau_n]
  norm_num [couponCount, getDiscountFactor, getZeroRate_nil,
    Finset.Icc_self, Finset.sum_singleton]

lemma sortQuotes_one_three : sortQuotes [(1, 3)] = [((1:ℝ), (3:ℝ))] := by
  simp [sortQuotes, List.insertionSort, List.orderedInsert]

lemma calibrate_one_three : calibrate [(1, 3)] [] = [((1:ℝ), (0:ℝ))] := by
  rw [calibrate, sortQuotes_one_three, calibrateLoop_cons, calibrateLoop_nil,
    calibrateStep, if_neg (by simp [curveKeys])]
  show addNode [] 1 (stepRate [] 1 3) = [((1:ℝ), (0:ℝ))]
  rw [stepRate, df_n_nil_one_three, if_neg (by norm_num)]
  rfl

/-- C5 counterexample: on the empty seed with the single quote (1, 3)
the bootstrapping step produces DF_T = -1/2, which is not positive,
yet calibrate returns normally and its result contains the silently
inserted pillar (1, 0) — no failure is surfaced to the caller, refuting
the claim that a NonPositiveDiscountFactor error is reported instead of
inserting a zero-rate pillar. -/
theorem nonpositive_df_counterexample :
    df_n [] 1 3 ≤ 0 ∧ calibrate [(1, 3)] [] = [((1:ℝ), (0:ℝ))] :=
  ⟨by rw [df_n_nil_one_three]; norm_num, calibrate_one_three⟩

/-- C5 amended: whenever a bootstrapping step produces DF_T <= 0 for a
quote maturity not already on the curve, calibrateStep silently inserts
the pillar (T, 0): the rate is zeroed and no error reaches the caller. -/
theorem nonpositive_df_silently_zeroed (c : Curve) (T S : ℝ)
    (hmem : T ∉ curveKeys c) (hdf : df_n c T S ≤ 0) :
    calibrateStep c (T, S) = addNode c T 0 := by
  rw [calibrateStep, if_neg hmem]
  show addNode c T (stepRate c T S) = addNode c T 0
  rw [stepRate, if_neg (not_lt.mpr hdf)]

/-- Witness for C5 amended: the concrete failing input above. -/
theorem nonpositive_df_silently_zeroed_witness :
    (1:ℝ) ∉ curveKeys [] ∧ df_n [] 1 3 ≤ 0 ∧
    calibrateStep [] (1, 3) = addNode [] 1 0 :=
  ⟨by simp [curveKeys], by rw [df_n_nil_one_three]; norm_num,
    nonpositive_df_silently_zeroed [] 1 3 (by simp [curveKeys])
      (by rw [df_n_nil_one_three]; norm_num)⟩

/-- C6 counterexample: addNode performs no maturity validation: at the
non-positive maturity -1 it simply proceeds and stores the pillar, so
the mutation is not rejected and no InvalidMaturity failure exists. -/
theorem invalid_maturity_counterexample :
    addNode [] (-1) (2/100) = [((-1 : ℝ), (2/100 : ℝ))] := rfl

/-- C6 amended: addNode accepts every maturity, including maturity <= 0:
the pillar is always inserted and the operation proceeds normally with
no reported error. -/
theorem addNode_no_validation (c : Curve) (t r : ℝ) (_ht : t ≤ 0) :
    (t, r) ∈ addNode c t r :=
  addNode_self_mem c t r

/-- Witness for C6 amended: inserting at maturity -1 proceeds. -/
theorem addNode_no_validation_witness :
    (-1 : ℝ) ≤ 0 ∧ ((-1 : ℝ), (2:ℝ)) ∈ addNode [] (-1) 2 :=
  ⟨by norm_num, addNode_no_validation [] (-1) 2 (by norm_num)⟩

/-! ### C1: the repricing identity -/

/-- C1 amended: a calibrated quote reprices to exactly zero NPV on the
finished curve provided that, at the moment the quote (T, S) is
processed, its maturity is not yet a pillar, every one of its coupon
dates i * 0.5 < T is already a pillar of the curve built so far (so
later insertions cannot change those discount factors), and the solved
discount factor DF_T is positive. -/
theorem reprice_exact (qs : List (ℝ × ℝ)) (c : Curve)
    (qs1 qs2 : List (ℝ × ℝ)) (T S : ℝ)
    (hsplit : sortQuotes qs = qs1 ++ (T, S) :: qs2)
    (hs : List.Sorted (· < ·) (curveKeys c))
    (hT : 0 < T)
    (hmem : T ∉ curveKeys (calibrateLoop c qs1))
    (hcoup : ∀ i ∈ Finset.Icc 1 (couponCount T),
      0.5 * (i : ℝ) ∈ curveKeys (calibrateLoop c qs1))
    (hdf : 0 < df_n (calibrateLoop c qs1) T S) :
    priceSwap (calibrate qs c) T S = 0 := by
  rw [calibrate, hsplit]
  set c1 := calibrateLoop c qs1 with hc1
  have hs1 : List.Sorted (· < ·) (curveKeys c1) := calibrateLoop_sorted hs qs1
  set df := df_n c1 T S with hdfdef
  set zr := -Real.log df / T with hzrdef
  have hstep : calibrateStep c1 (T, S) = addNode c1 T zr := by
    rw [calibrateStep, if_neg hmem]
    show addNode c1 T (stepRate c1 T S) = addNode c1 T zr
    rw [stepRate, if_pos hdf]
  have hloop : calibrateLoop c (qs1 ++ (T, S) :: qs2)
      = calibrateLoop (addNode c1 T zr) qs2 := by
    rw [calibrateLoop, List.foldl_append, List.foldl_cons, ← hstep]
    rfl
  rw [hloop]
  set cfin := calibrateLoop (addNode c1 T zr) qs2 with hcfin
  have hs2 : List.Sorted (· < ·) (curveKeys (addNode c1 T zr)) :=
    sorted_addNode hs1 T zr
  have hsf : List.Sorted (· < ·) (curveKeys cfin) := calibrateLoop_sorted hs2 qs2
  have hTmem : (T, zr) ∈ cfin := calibrateLoop_mem (addNode_self_mem c1 T zr) qs2
  have hDFT : getDiscountFactor cfin T = df := by
    rw [getDiscountFactor, getZeroRate_pillar hsf hTmem]
    have hexp : -zr * T = Real.log df := by
      rw [hzrdef]
      field_simp
    rw [hexp, Real.exp_log hdf]
  have hcoupDF : ∀ i ∈ Finset.Icc 1 (couponCount T),
      getDiscountFactor cfin (0.5 * (i : ℝ))
        = getDiscountFactor c1 (0.5 * (i : ℝ)) := by
    intro i hi
    obtain ⟨r, hr⟩ := mem_curveKeys.mp (hcoup i hi)
    have hne : (0.5 * (i : ℝ), r).1 ≠ T := by
      intro he
      exact hmem (he ▸ hcoup i hi)
    have hr2 : (0.5 * (i : ℝ), r) ∈ cfin :=
      calibrateLoop_mem (addNode_mem_of_ne T zr hr hne) qs2
    rw [getDiscountFactor, getDiscountFactor, getZeroRate_pillar hsf hr2,
      getZeroRate_pillar hs1 hr]
  have hann : annuity cfin T
      = (∑ i ∈ Finset.Icc 1 (couponCount T),
          0.5 * getDiscountFactor c1 (0.5 * (i : ℝ))) + tau_n T * df := by
    rw [annuity]
    congr 1
    · exact Finset.sum_congr rfl (fun i hi => by rw [hcoupDF i hi])
    · rw [show last_tau T = tau_n T from rfl, hDFT]
  have hden : (1 + tau_n T * S) ≠ 0 := by
    intro h0
    have hdf0 : df = 0 := by
      rw [hdfdef, df_n, h0, div_zero]
    rw [hdf0] at hdf
    exact lt_irrefl 0 hdf
  have hdfeq : df * (1 + tau_n T * S) = 1 - sumDiscountedCoupons c1 S T := by
    rw [hdfdef, df_n, div_mul_cancel₀ _ hden]
  rw [sumDiscountedCoupons] at hdfeq
  have hsum : ∑ i ∈ Finset.Icc 1 (couponCount T),
      S * 0.5 * getDiscountFactor c1 (0.5 * (i : ℝ))
      = S * ∑ i ∈ Finset.Icc 1 (couponCount T),
          0.5 * getDiscountFactor c1 (0.5 * (i : ℝ)) := by
    rw [Finset.mul_sum]
    exact Finset.sum_congr rfl (fun i _ => by ring)
  rw [hsum] at hdfeq
  rw [priceSwap, hDFT, hann]
  linear_combination -hdfeq

/-- Witness for C1 amended: seed pillar (0.5, 0) and the single quote
(1, 0), whose only coupon date 0.5 is already a pillar. -/
theorem reprice_exact_witness :
    sortQuotes [(1, 0)] = [] ++ ((1:ℝ), (0:ℝ)) :: [] ∧
    (1:ℝ) ∉ curveKeys (calibrateLoop [((0.5:ℝ), (0:ℝ))] []) ∧
    0 < df_n (calibrateLoop [((0.5:ℝ), (0:ℝ))] []) 1 0 ∧
    priceSwap (calibrate [(1, 0)] [((0.5:ℝ), (0:ℝ))]) 1 0 = 0 := by
  have hsplit : sortQuotes [(1, 0)] = [] ++ ((1:ℝ), (0:ℝ)) :: [] := by
    simp [sortQuotes, List.insertionSort, List.orderedInsert]
  have hmem : (1:ℝ) ∉ curveKeys (calibrateLoop [((0.5:ℝ), (0:ℝ))] []) := by
    rw [calibrateLoop_nil]
    norm_num [curveKeys]
  have hdf : 0 < df_n (calibrateLoop [((0.5:ℝ), (0:ℝ))] []) 1 0 := by
    rw [calibrateLoop_nil, df_n, sumDiscountedCoupons]
    norm_num
  refine ⟨hsplit, hmem, hdf, ?_⟩
  refine reprice_exact [(1, 0)] [((0.5:ℝ), (0:ℝ))] [] [] 1 0 hsplit ?_ (by norm_num)
    hmem ?_ hdf
  · norm_num [curveKeys]
  · intro i hi
    have hcc : couponCount 1 = 1 := by norm_num [couponCount]
    rw [hcc, Finset.Icc_self, Finset.mem_singleton] at hi
    subst hi
    rw [calibrateLoop_nil]
    norm_num [curveKeys]

lemma df_n_nil_one_one : df_n [] 1 1 = 1/2 := by
  rw [df_n, sumDiscountedCoupons, tau_n]
  norm_num [couponCount, getDiscountFactor, getZeroRate_nil,
    Finset.Icc_self, Finset.sum_singleton]

lemma stepRate_nil_one_one : stepRate [] 1 1 = Real.log 2 := by
  rw [stepRate, df_n_nil_one_one, if_pos (by norm_num)]
  rw [show (1/2 : ℝ) = 2⁻¹ by norm_num, Real.log_inv]
  norm_num

lemma calibrate_nil_one_one : calibrate [(1, 1)] [] = [((1:ℝ), Real.log 2)] := by
  have hsort : sortQuotes [(1, 1)] = [((1:ℝ), (1:ℝ))] := by
    simp [sortQuotes, List.insertionSort, List.orderedInsert]
  rw [calibrate, hsort, calibrateLoop_cons, calibrateLoop_nil, calibrateStep,
    if_neg (by simp [curveKeys])]
  show addNode [] 1 (stepRate [] 1 1) = [((1:ℝ), Real.log 2)]
  rw [stepRate_nil_one_one]
  rfl

lemma getZeroRate_logtwo_le_one {t : ℝ} (ht : t ≤ 1) :
    getZeroRate [((1:ℝ), Real.log 2)] t = Real.log 2 := by
  rw [getZeroRate_cons]
  exact if_pos ht

lemma df_logtwo_one : getDiscountFactor [((1:ℝ), Real.log 2)] 1 = 1/2 := by
  rw [getDiscountFactor, getZeroRate_logtwo_le_one le_rfl]
  rw [show -Real.log 2 * 1 = -Real.log 2 by ring, Real.exp_neg,
    Real.exp_log (by norm_num : (0:ℝ) < 2)]
  norm_num

lemma annuity_logtwo : annuity [((1:ℝ), Real.log 2)] 1
    = 0.5 * Real.exp (-Real.log 2 * 0.5) := by
  rw [annuity, show couponCount 1 = 1 from by norm_num [couponCount],
    Finset.Icc_self, Finset.sum_singleton, last_tau]
  norm_num [getDiscountFactor, getZeroRate_logtwo_le_one]

lemma exp_neg_half_log_two_sq :
    Real.exp (-Real.log 2 * 0.5) * Real.exp (-Real.log 2 * 0.5) = 1/2 := by
  rw [← Real.exp_add, show -Real.log 2 * 0.5 + -Real.log 2 * 0.5 = -Real.log 2 by ring,
    Real.exp_neg, Real.exp_log (by norm_num : (0:ℝ) < 2)]
  norm_num

/-- C1 counterexample: with the empty seed curve and the single quote
(1, 1), calibration solves DF(1) against the empty curve where every
coupon discounts at 1, but the finished curve discounts the 0.5 coupon
with the new pillar rate log 2; the repriced NPV is
1/2 - exp(-log 2 / 2) / 2, which exceeds 1/8 and hence the claimed
1e-9 tolerance, refuting the universally quantified repricing claim. -/
theorem reprice_counterexample :
    1e-9 < |priceSwap (calibrate [(1, 1)] []) 1 1| := by
  rw [calibrate_nil_one_one, priceSwap, df_logtwo_one, annuity_logtwo]
  set x := Real.exp (-Real.log 2 * 0.5)
  have hxpos : 0 < x := Real.exp_pos _
  have hxx : x * x = 1/2 := exp_neg_half_log_two_sq
  have hxlt : x < 3/4 := by nlinarith [sq_nonneg (x - 3/4)]
  have habs : |1 - 1/2 - 1 * (0.5 * x)| = 1/2 - 0.5 * x := by
    rw [abs_of_pos (by nlinarith)]
    ring
  rw [habs]
  nlinarith
